import Mathlib

/-!
Verification of the c-siphash library (SipHash-2-4).

The development embeds `src/c-siphash.c` shallowly: the mutable struct
`CSipHash` becomes a record of natural numbers, every 64-bit operation is
performed on `Nat` with an explicit `% 2 ^ 64` where the C code wraps, and
the byte-pointer interface of `c_siphash_append` is modelled twice: once at
the memory level, where the buffer is a list of readable bytes and every
access is checked (`Option`), and once at the list level, where the input
is exactly the appended bytes.  A bridge lemma connects the two.  A
lane-level block processor `sipUpdate` serves as the algebraic normal form
used for the streaming-equivalence and invariant proofs.
-/

/-- State of the incremental SipHash engine, mirroring `struct CSipHash`:
four 64-bit lanes, the pending-bytes accumulator and the running byte
count.  All fields are natural numbers; the code keeps them below
`2 ^ 64`. -/
structure CSipHash where
  v0 : Nat
  v1 : Nat
  v2 : Nat
  v3 : Nat
  padding : Nat
  n_bytes : Nat
deriving DecidableEq

/-- Just the four permutation lanes `v0..v3`. -/
structure SipLanes where
  v0 : Nat
  v1 : Nat
  v2 : Nat
  v3 : Nat
deriving DecidableEq

/-- Translation of `c_siphash_read_le64`: a little-endian 64-bit word from
the first eight bytes of the list. -/
def c_siphash_read_le64 (bytes : List Nat) : Nat :=
  bytes.getD 0 0 |||
  (bytes.getD 1 0 <<< 8) |||
  (bytes.getD 2 0 <<< 16) |||
  (bytes.getD 3 0 <<< 24) |||
  (bytes.getD 4 0 <<< 32) |||
  (bytes.getD 5 0 <<< 40) |||
  (bytes.getD 6 0 <<< 48) |||
  (bytes.getD 7 0 <<< 56)

/-- Translation of `c_siphash_rotate_left`: `(x << b) | (x >> (64 - b))`
on `uint64_t`, so the left shift wraps modulo `2 ^ 64`. -/
def c_siphash_rotate_left (x b : Nat) : Nat :=
  ((x <<< b) % 2 ^ 64) ||| (x >>> (64 - b))

/-- Translation of `c_siphash_sipround` acting on the full state. -/
def c_siphash_sipround (s : CSipHash) : CSipHash :=
  let v0 := (s.v0 + s.v1) % 2 ^ 64
  let v1 := c_siphash_rotate_left s.v1 13
  let v1 := v1 ^^^ v0
  let v0 := c_siphash_rotate_left v0 32
  let v2 := (s.v2 + s.v3) % 2 ^ 64
  let v3 := c_siphash_rotate_left s.v3 16
  let v3 := v3 ^^^ v2
  let v0 := (v0 + v3) % 2 ^ 64
  let v3 := c_siphash_rotate_left v3 21
  let v3 := v3 ^^^ v0
  let v2 := (v2 + v1) % 2 ^ 64
  let v1 := c_siphash_rotate_left v1 17
  let v1 := v1 ^^^ v2
  let v2 := c_siphash_rotate_left v2 32
  { s with v0 := v0, v1 := v1, v2 := v2, v3 := v3 }

/-- Translation of `c_siphash_init`: the two seed words are read
little-endian from bytes 0-7 and 8-15 and folded into the four
constants. -/
def c_siphash_init (seed : List Nat) : CSipHash :=
  let k0 := c_siphash_read_le64 seed
  let k1 := c_siphash_read_le64 (seed.drop 8)
  { v0 := 0x736f6d6570736575 ^^^ k0
    v1 := 0x646f72616e646f6d ^^^ k1
    v2 := 0x6c7967656e657261 ^^^ k0
    v3 := 0x7465646279746573 ^^^ k1
    padding := 0
    n_bytes := 0 }

/-- The four lanes of a state. -/
def lanesOf (s : CSipHash) : SipLanes :=
  { v0 := s.v0, v1 := s.v1, v2 := s.v2, v3 := s.v3 }

/-- Replace the four lanes of a state. -/
def withLanes (s : CSipHash) (v : SipLanes) : CSipHash :=
  { s with v0 := v.v0, v1 := v.v1, v2 := v.v2, v3 := v.v3 }

/-- `c_siphash_sipround` restricted to the lanes it actually touches. -/
def siproundV (s : SipLanes) : SipLanes :=
  let v0 := (s.v0 + s.v1) % 2 ^ 64
  let v1 := c_siphash_rotate_left s.v1 13
  let v1 := v1 ^^^ v0
  let v0 := c_siphash_rotate_left v0 32
  let v2 := (s.v2 + s.v3) % 2 ^ 64
  let v3 := c_siphash_rotate_left s.v3 16
  let v3 := v3 ^^^ v2
  let v0 := (v0 + v3) % 2 ^ 64
  let v3 := c_siphash_rotate_left v3 21
  let v3 := v3 ^^^ v0
  let v2 := (v2 + v1) % 2 ^ 64
  let v1 := c_siphash_rotate_left v1 17
  let v1 := v1 ^^^ v2
  let v2 := c_siphash_rotate_left v2 32
  { v0 := v0, v1 := v1, v2 := v2, v3 := v3 }

/-- One 64-bit word folded into the lanes, as done for every complete
word in `c_siphash_append` and `c_siphash_finalize`:
`v3 ^= m; round; round; v0 ^= m`. -/
def compressV (v : SipLanes) (m : Nat) : SipLanes :=
  let v := { v with v3 := v.v3 ^^^ m }
  let v := siproundV (siproundV v)
  { v with v0 := v.v0 ^^^ m }

/-- The byte-at-a-time loop at the top of `c_siphash_append`: bytes are
consumed while input remains and fewer than eight bytes are buffered.
Returns the new accumulator, the new buffered count, and the unread
input. -/
def drainLoop (pad left : Nat) : List Nat → Nat × Nat × List Nat
  | [] => (pad, left, [])
  | b :: rest =>
      if left < 8 then drainLoop (pad ||| (b <<< (left * 8))) (left + 1) rest
      else (pad, left, b :: rest)

/-- The bulk 64-bit loop of `c_siphash_append`.  The C loop runs while
`bytes < end` after `end` was moved back by the number `tl` of trailing
bytes, which is the condition `tl < length`; each step reads one
little-endian word.  The loop is only ever entered with
`length % 8 = tl`, so each read is eight in-bounds bytes. -/
def bulkLoop (v : SipLanes) (tl : Nat) : List Nat → SipLanes × List Nat
  | b0 :: b1 :: b2 :: b3 :: b4 :: b5 :: b6 :: b7 :: rest =>
      if tl < rest.length + 8 then
        bulkLoop (compressV v (c_siphash_read_le64 [b0, b1, b2, b3, b4, b5, b6, b7])) tl rest
      else (v, b0 :: b1 :: b2 :: b3 :: b4 :: b5 :: b6 :: b7 :: rest)
  | bs => (v, bs)

/-- The trailing `switch` of `c_siphash_append`: the first `k` bytes of
the remaining input are ORed into the accumulator at byte positions
`0..k-1`. -/
def tailPack (bs : List Nat) : Nat → Nat
  | 0 => 0
  | k + 1 => tailPack bs k ||| (bs.getD k 0 <<< (k * 8))

/-- Second half of `c_siphash_append`, after the leftover bytes have been
drained: the bulk word loop followed by the trailing-bytes switch.
`s.n_bytes` already counts the whole message. -/
def appendTail (s : CSipHash) (bs : List Nat) : CSipHash :=
  let tl := s.n_bytes % 8
  match bulkLoop (lanesOf s) tl bs with
  | (v, rest) => { withLanes s v with padding := s.padding ||| tailPack rest tl }

/-- Translation of `c_siphash_append` on the exact list of appended
bytes. -/
def c_siphash_append (s : CSipHash) (bytes : List Nat) : CSipHash :=
  let left := s.n_bytes % 8
  let s1 : CSipHash := { s with n_bytes := (s.n_bytes + bytes.length) % 2 ^ 64 }
  if left > 0 then
    match drainLoop s1.padding left bytes with
    | (pad, leftA, rest) =>
      if rest = [] ∧ leftA < 8 then { s1 with padding := pad }
      else
        appendTail { withLanes s1 (compressV (lanesOf s1) pad) with padding := 0 } rest
  else
    appendTail s1 bytes

/-- Translation of `c_siphash_finalize`. -/
def c_siphash_finalize (s : CSipHash) : Nat :=
  let b := s.padding ||| ((s.n_bytes <<< 56) % 2 ^ 64)
  let s := { s with v3 := s.v3 ^^^ b }
  let s := c_siphash_sipround (c_siphash_sipround s)
  let s := { s with v0 := s.v0 ^^^ b }
  let s := { s with v2 := s.v2 ^^^ 0xff }
  let s := c_siphash_sipround (c_siphash_sipround (c_siphash_sipround (c_siphash_sipround s)))
  s.v0 ^^^ s.v1 ^^^ s.v2 ^^^ s.v3

/-- Translation of `c_siphash_hash`: init, one append, finalize. -/
def c_siphash_hash (seed bytes : List Nat) : Nat :=
  c_siphash_finalize (c_siphash_append (c_siphash_init seed) bytes)

/-- Memory-level `c_siphash_read_le64`: eight checked reads starting at
index `i` of the readable buffer. -/
def readLE64Mem (buf : List Nat) (i : Nat) : Option Nat := do
  let b0 ← buf[i]?
  let b1 ← buf[i + 1]?
  let b2 ← buf[i + 2]?
  let b3 ← buf[i + 3]?
  let b4 ← buf[i + 4]?
  let b5 ← buf[i + 5]?
  let b6 ← buf[i + 6]?
  let b7 ← buf[i + 7]?
  pure (b0 ||| (b1 <<< 8) ||| (b2 <<< 16) ||| (b3 <<< 24) |||
        (b4 <<< 32) ||| (b5 <<< 40) ||| (b6 <<< 48) ||| (b7 <<< 56))

/-- Memory-level drain loop of `c_siphash_append`: the cursor `i` walks
towards `endi` while fewer than eight bytes are buffered; every byte read
is checked against the buffer. -/
def drainLoopMem (buf : List Nat) (endi i pad left : Nat) : Option (Nat × Nat × Nat) :=
  if _h : i < endi ∧ left < 8 then
    match buf[i]? with
    | none => none
    | some b => drainLoopMem buf endi (i + 1) (pad ||| (b <<< (left * 8))) (left + 1)
  else some (i, pad, left)
termination_by endi - i
decreasing_by omega

/-- Memory-level bulk loop of `c_siphash_append`: words are read at the
cursor while it is before `endi`, stepping by eight. -/
def bulkLoopMem (buf : List Nat) (endi i : Nat) (v : SipLanes) : Option (Nat × SipLanes) :=
  if _h : i < endi then
    match readLE64Mem buf i with
    | none => none
    | some m => bulkLoopMem buf endi (i + 8) (compressV v m)
  else some (i, v)
termination_by endi - i
decreasing_by omega

/-- Memory-level trailing switch: checked reads of `buf[j..j+k-1]` packed
at byte positions `0..k-1`. -/
def tailPackMem (buf : List Nat) (j : Nat) : Nat → Option Nat
  | 0 => some 0
  | k + 1 => do
    let rest ← tailPackMem buf j k
    let b ← buf[j + k]?
    pure (rest ||| (b <<< (k * 8)))

/-- Memory-level second half of `c_siphash_append` from cursor `i`:
`end -= n_bytes % 8`, the bulk loop, then the trailing switch. -/
def appendTailMem (buf : List Nat) (n i : Nat) (s : CSipHash) : Option CSipHash :=
  let tl := s.n_bytes % 8
  match bulkLoopMem buf (n - tl) i (lanesOf s) with
  | none => none
  | some (j, v) =>
    match tailPackMem buf j tl with
    | none => none
    | some pack => some { withLanes s v with padding := s.padding ||| pack }

/-- Memory-level `c_siphash_append`: the buffer holds the readable bytes
at the passed pointer and `n` is the byte count; every access is
checked, `none` marking an out-of-bounds read. -/
def c_siphash_append_mem (s : CSipHash) (buf : List Nat) (n : Nat) : Option CSipHash :=
  let left := s.n_bytes % 8
  let s1 : CSipHash := { s with n_bytes := (s.n_bytes + n) % 2 ^ 64 }
  if left > 0 then
    match drainLoopMem buf n 0 s1.padding left with
    | none => none
    | some (i, pad, leftA) =>
      if i = n ∧ leftA < 8 then some { s1 with padding := pad }
      else appendTailMem buf n i { withLanes s1 (compressV (lanesOf s1) pad) with padding := 0 }
  else appendTailMem buf n 0 s1

/-- Memory-level `c_siphash_hash`. -/
def c_siphash_hash_mem (seed buf : List Nat) (n : Nat) : Option Nat :=
  (c_siphash_append_mem (c_siphash_init seed) buf n).map c_siphash_finalize

/-- Little-endian packing of a byte list into a natural number, byte `i`
at bit positions `8 i .. 8 i + 7`. -/
def packLE : List Nat → Nat
  | [] => 0
  | b :: bs => b ||| (packLE bs <<< 8)

/-- Arithmetic little-endian value of a byte list. -/
def leVal : List Nat → Nat
  | [] => 0
  | b :: bs => b + 256 * leVal bs

/-- Every entry of the list is a byte. -/
def ByteList (bs : List Nat) : Prop := ∀ b ∈ bs, b < 256

/-- Arithmetic form of 64-bit rotation to the left by `b`. -/
def rotl64 (x b : Nat) : Nat :=
  (x % 2 ^ (64 - b)) * 2 ^ b + x / 2 ^ (64 - b)

/-- The SipHash round exactly as the specification lists it, with the
arithmetic rotation and the rotation amounts 13, 32, 16, 21, 17, 32. -/
def siproundSpec (s : CSipHash) : CSipHash :=
  let v0 := (s.v0 + s.v1) % 2 ^ 64
  let v1 := rotl64 s.v1 13
  let v1 := v1 ^^^ v0
  let v0 := rotl64 v0 32
  let v2 := (s.v2 + s.v3) % 2 ^ 64
  let v3 := rotl64 s.v3 16
  let v3 := v3 ^^^ v2
  let v0 := (v0 + v3) % 2 ^ 64
  let v3 := rotl64 v3 21
  let v3 := v3 ^^^ v0
  let v2 := (v2 + v1) % 2 ^ 64
  let v1 := rotl64 v1 17
  let v1 := v1 ^^^ v2
  let v2 := rotl64 v2 32
  { s with v0 := v0, v1 := v1, v2 := v2, v3 := v3 }

/-- Lane-level normal form of the append phase: complete eight-byte words
are folded in from the front, the remainder (fewer than eight bytes) is
returned unprocessed. -/
def sipUpdate (v : SipLanes) : List Nat → SipLanes × List Nat
  | b0 :: b1 :: b2 :: b3 :: b4 :: b5 :: b6 :: b7 :: rest =>
      sipUpdate (compressV v (c_siphash_read_le64 [b0, b1, b2, b3, b4, b5, b6, b7])) rest
  | bs => (v, bs)

/-- States the streaming interface actually produces: the byte count fits
in 64 bits and the accumulator holds exactly `n_bytes % 8` packed
bytes. -/
def PadInv (s : CSipHash) : Prop :=
  s.n_bytes < 2 ^ 64 ∧
  ∃ p : List Nat, s.padding = packLE p ∧ s.n_bytes % 8 = p.length ∧ p.length < 8

/-- The finalization sequence as the specification words it: the final
block is the pending bytes with the low byte of the total length in the
top byte position, mixed in like a message word, then `v2` is xored with
255, four further rounds run, and the four lanes are folded by xor. -/
def finalizeSpec (s : CSipHash) : Nat :=
  let b := s.padding + (s.n_bytes % 256) * 2 ^ 56
  let t1 := c_siphash_sipround (c_siphash_sipround { s with v3 := s.v3 ^^^ b })
  let t2 := { t1 with v0 := t1.v0 ^^^ b }
  let t3 := { t2 with v2 := t2.v2 ^^^ 255 }
  let t4 := c_siphash_sipround (c_siphash_sipround (c_siphash_sipround (c_siphash_sipround t3)))
  t4.v0 ^^^ t4.v1 ^^^ t4.v2 ^^^ t4.v3

/-- The seed used by `test_api` in `src/test-api.c`: the ASCII bytes of
the string 0123456789abcdef. -/
def testSeed : List Nat :=
  [48, 49, 50, 51, 52, 53, 54, 55, 56, 57, 97, 98, 99, 100, 101, 102]

/-! ## Bit-level packing lemmas -/

theorem or_shiftLeft_distrib (a b k : Nat) : (a ||| b) <<< k = (a <<< k) ||| (b <<< k) := by
  apply Nat.eq_of_testBit_eq
  intro i
  simp [Bool.and_or_distrib_left]

theorem or_shiftLeft_eq_add {b k : Nat} (a : Nat) (hb : b < 2 ^ k) :
    b ||| (a <<< k) = b + a <<< k := by
  rw [Nat.shiftLeft_eq, Nat.lor_comm, Nat.mul_comm, ← Nat.mul_add_lt_is_or hb a]
  omega

theorem packLE_append (p q : List Nat) :
    packLE (p ++ q) = packLE p ||| (packLE q <<< (8 * p.length)) := by
  induction p with
  | nil => simp [packLE]
  | cons a p ih =>
      have h8 : 8 * ((a :: p).length) = 8 * p.length + 8 := by
        simp only [List.length_cons]; ring
      calc packLE ((a :: p) ++ q) = a ||| (packLE (p ++ q) <<< 8) := rfl
        _ = a ||| ((packLE p ||| packLE q <<< (8 * p.length)) <<< 8) := by rw [ih]
        _ = a ||| ((packLE p <<< 8) ||| (packLE q <<< (8 * p.length)) <<< 8) := by
              rw [or_shiftLeft_distrib]
        _ = a ||| ((packLE p <<< 8) ||| packLE q <<< (8 * p.length + 8)) := by
              rw [← Nat.shiftLeft_add]
        _ = (a ||| packLE p <<< 8) ||| packLE q <<< (8 * (a :: p).length) := by
              rw [h8, Nat.or_assoc]
        _ = packLE (a :: p) ||| packLE q <<< (8 * (a :: p).length) := rfl

theorem packLE_lt {p : List Nat} (hp : ByteList p) : packLE p < 2 ^ (8 * p.length) := by
  induction p with
  | nil => simp [packLE]
  | cons b bs ih =>
      have hb : b < 256 := hp b (List.mem_cons_self b bs)
      have hbs : ByteList bs := fun x hx => hp x (List.mem_cons_of_mem _ hx)
      have hlen : 8 * (b :: bs).length = 8 * bs.length + 8 := by
        simp only [List.length_cons]; ring
      have h1 : packLE bs <<< 8 < 2 ^ (8 * (b :: bs).length) := by
        rw [Nat.shiftLeft_eq, hlen, pow_add]
        exact (Nat.mul_lt_mul_right (by norm_num)).mpr (ih hbs)
      have h2 : b < 2 ^ (8 * (b :: bs).length) := by
        calc b < 256 := hb
          _ = 2 ^ 8 := by norm_num
          _ ≤ 2 ^ (8 * (b :: bs).length) := by
              apply Nat.pow_le_pow_right (by norm_num)
              simp only [List.length_cons]
              omega
      exact Nat.or_lt_two_pow h2 h1

theorem packLE_eq_leVal {p : List Nat} (hp : ByteList p) : packLE p = leVal p := by
  induction p with
  | nil => rfl
  | cons b bs ih =>
      have hb : b < 256 := hp b (List.mem_cons_self b bs)
      have hbs : ByteList bs := fun x hx => hp x (List.mem_cons_of_mem _ hx)
      have hb8 : b < 2 ^ 8 := by norm_num at hb ⊢; exact hb
      calc packLE (b :: bs) = b ||| (packLE bs <<< 8) := rfl
        _ = b + packLE bs <<< 8 := or_shiftLeft_eq_add _ hb8
        _ = b + packLE bs * 2 ^ 8 := by rw [Nat.shiftLeft_eq]
        _ = b + 256 * leVal bs := by rw [ih hbs]; ring
        _ = leVal (b :: bs) := rfl

theorem packLE_extract {p : List Nat} (hp : ByteList p) :
    ∀ i, i < p.length → packLE p / 2 ^ (8 * i) % 256 = p.getD i 0 := by
  induction p with
  | nil => simp
  | cons b bs ih =>
      intro i hi
      have hb : b < 256 := hp b (List.mem_cons_self b bs)
      have hbs : ByteList bs := fun x hx => hp x (List.mem_cons_of_mem _ hx)
      have hb8 : b < 2 ^ 8 := by norm_num at hb ⊢; exact hb
      have hrw : packLE (b :: bs) = b + packLE bs * 2 ^ 8 := by
        calc packLE (b :: bs) = b ||| (packLE bs <<< 8) := rfl
          _ = b + packLE bs <<< 8 := or_shiftLeft_eq_add _ hb8
          _ = b + packLE bs * 2 ^ 8 := by rw [Nat.shiftLeft_eq]
      rw [hrw]
      cases i with
      | zero =>
          have : (b + packLE bs * 2 ^ 8) % 256 = b := by
            have h256 : (2 : Nat) ^ 8 = 256 := by norm_num
            rw [h256, Nat.add_mul_mod_self_right, Nat.mod_eq_of_lt hb]
          simpa [List.getD_cons_zero] using this
      | succ i =>
          have hdiv : (b + packLE bs * 2 ^ 8) / 2 ^ (8 * (i + 1)) = packLE bs / 2 ^ (8 * i) := by
            have h1 : 8 * (i + 1) = 8 + 8 * i := by ring
            rw [h1, pow_add, ← Nat.div_div_eq_div_mul]
            have h2 : (b + packLE bs * 2 ^ 8) / 2 ^ 8 = packLE bs := by
              rw [Nat.add_mul_div_right _ _ (by norm_num : (0 : Nat) < 2 ^ 8),
                Nat.div_eq_of_lt hb8, Nat.zero_add]
            rw [h2]
          rw [hdiv, List.getD_cons_succ]
          have hi2 : i < bs.length := by
            simp only [List.length_cons] at hi; omega
          exact ih hbs i hi2

theorem tailPack_eq_packLE (bs : List Nat) :
    ∀ k, k ≤ bs.length → tailPack bs k = packLE (bs.take k) := by
  intro k
  induction k with
  | zero => intro _; simp [tailPack, packLE]
  | succ k ih =>
      intro hk
      have hklt : k < bs.length := by omega
      have hlen : (bs.take k).length = k := by
        simp only [List.length_take]; omega
      simp only [tailPack]
      rw [ih (by omega), List.take_succ, packLE_append, hlen]
      rw [List.getElem?_eq_getElem hklt]
      simp only [Option.toList_some]
      have hpack1 : packLE [bs[k]] = bs[k] := by simp [packLE]
      have hgd : bs.getD k 0 = bs[k] := by
        simp [List.getD_eq_getElem?_getD, List.getElem?_eq_getElem hklt]
      rw [hpack1, hgd, Nat.mul_comm 8 k]

theorem read_le64_eq_tailPack (bs : List Nat) : c_siphash_read_le64 bs = tailPack bs 8 := by
  simp [c_siphash_read_le64, tailPack]

theorem read_le64_eq_packLE {l : List Nat} (h : 8 ≤ l.length) :
    c_siphash_read_le64 l = packLE (l.take 8) := by
  rw [read_le64_eq_tailPack, tailPack_eq_packLE l 8 h]

/-! ## Characterization of the append loops -/

theorem drainLoop_eq (bs : List Nat) : ∀ (pad left : Nat), left ≤ 8 →
    drainLoop pad left bs =
      (pad ||| (packLE (bs.take (8 - left)) <<< (left * 8)),
       if left + bs.length < 8 then left + bs.length else 8,
       bs.drop (8 - left)) := by
  induction bs with
  | nil =>
      intro pad left h
      simp only [drainLoop, List.take_nil, List.drop_nil, packLE, Nat.zero_shiftLeft,
        Nat.or_zero, List.length_nil, Prod.mk.injEq]
      refine ⟨trivial, ?_, trivial⟩
      split <;> omega
  | cons b rest ih =>
      intro pad left h
      by_cases hl : left < 8
      · have h7 : 8 - left = (7 - left) + 1 := by omega
        simp only [drainLoop, if_pos hl]
        rw [ih _ _ (by omega)]
        have h71 : 8 - (left + 1) = 7 - left := by omega
        rw [h71]
        simp only [Prod.mk.injEq]
        refine ⟨?_, ?_, ?_⟩
        · rw [h7, List.take_succ_cons]
          have hc : packLE (b :: rest.take (7 - left)) =
              b ||| packLE (rest.take (7 - left)) <<< 8 := rfl
          rw [hc, or_shiftLeft_distrib, ← Nat.shiftLeft_add, Nat.or_assoc]
          have ha : (left + 1) * 8 = 8 + left * 8 := by ring
          rw [ha, Nat.add_comm 8 (left * 8)]
        · simp only [List.length_cons]
          split <;> split <;> omega
        · rw [h7, List.drop_succ_cons]
      · have hleq : left = 8 := by omega
        subst hleq
        simp only [drainLoop, if_neg hl, Nat.sub_self, List.take_zero, List.drop_zero,
          packLE, Nat.zero_shiftLeft, Nat.or_zero, Prod.mk.injEq, List.length_cons]
        refine ⟨trivial, ?_, trivial⟩
        split <;> omega

theorem read_le64_cons8 (b0 b1 b2 b3 b4 b5 b6 b7 : Nat) :
    c_siphash_read_le64 [b0, b1, b2, b3, b4, b5, b6, b7] =
      packLE [b0, b1, b2, b3, b4, b5, b6, b7] := by
  rw [read_le64_eq_packLE (by simp)]
  rfl

theorem sipUpdate_of_length_lt : ∀ (v : SipLanes) (l : List Nat),
    l.length < 8 → sipUpdate v l = (v, l)
  | _, [], _ => rfl
  | _, [_], _ => rfl
  | _, [_, _], _ => rfl
  | _, [_, _, _], _ => rfl
  | _, [_, _, _, _], _ => rfl
  | _, [_, _, _, _, _], _ => rfl
  | _, [_, _, _, _, _, _], _ => rfl
  | _, [_, _, _, _, _, _, _], _ => rfl
  | _, _ :: _ :: _ :: _ :: _ :: _ :: _ :: _ :: _, h => by
      simp only [List.length_cons] at h; omega

theorem sipUpdate_step : ∀ (v : SipLanes) (l : List Nat), 8 ≤ l.length →
    sipUpdate v l = sipUpdate (compressV v (packLE (l.take 8))) (l.drop 8)
  | v, b0 :: b1 :: b2 :: b3 :: b4 :: b5 :: b6 :: b7 :: t, _ => by
      simp only [sipUpdate, read_le64_cons8]
      rfl
  | _, [], h => by simp at h
  | _, [_], h => by simp at h
  | _, [_, _], h => by simp at h
  | _, [_, _, _], h => by simp at h
  | _, [_, _, _, _], h => by simp at h
  | _, [_, _, _, _, _], h => by simp at h
  | _, [_, _, _, _, _, _], h => by simp at h
  | _, [_, _, _, _, _, _, _], h => by simp at h

theorem sipUpdate_chunk : ∀ (A : List Nat) (v : SipLanes) (B : List Nat),
    sipUpdate v (A ++ B) = sipUpdate (sipUpdate v A).1 ((sipUpdate v A).2 ++ B)
  | b0 :: b1 :: b2 :: b3 :: b4 :: b5 :: b6 :: b7 :: rest, v, B => by
      simp only [List.cons_append, sipUpdate]
      exact sipUpdate_chunk rest _ B
  | [], _, _ => by simp [sipUpdate]
  | [_], _, _ => by simp [sipUpdate]
  | [_, _], _, _ => by simp [sipUpdate]
  | [_, _, _], _, _ => by simp [sipUpdate]
  | [_, _, _, _], _, _ => by simp [sipUpdate]
  | [_, _, _, _, _], _, _ => by simp [sipUpdate]
  | [_, _, _, _, _, _], _, _ => by simp [sipUpdate]
  | [_, _, _, _, _, _, _], _, _ => by simp [sipUpdate]

theorem sipUpdate_snd : ∀ (l : List Nat) (v : SipLanes),
    (sipUpdate v l).2 = l.drop (l.length - l.length % 8)
  | b0 :: b1 :: b2 :: b3 :: b4 :: b5 :: b6 :: b7 :: rest, v => by
      simp only [sipUpdate]
      rw [sipUpdate_snd rest]
      have hmod : (b0 :: b1 :: b2 :: b3 :: b4 :: b5 :: b6 :: b7 :: rest).length -
          (b0 :: b1 :: b2 :: b3 :: b4 :: b5 :: b6 :: b7 :: rest).length % 8 =
          (rest.length - rest.length % 8) + 8 := by
        simp only [List.length_cons]; omega
      rw [hmod]
      have hdd : (b0 :: b1 :: b2 :: b3 :: b4 :: b5 :: b6 :: b7 :: rest).drop
          ((rest.length - rest.length % 8) + 8) = rest.drop (rest.length - rest.length % 8) := by
        rw [Nat.add_comm, ← List.drop_drop]
        rfl
      rw [hdd]
  | [], _ => by simp [sipUpdate]
  | [_], _ => by simp [sipUpdate]
  | [_, _], _ => by simp [sipUpdate]
  | [_, _, _], _ => by simp [sipUpdate]
  | [_, _, _, _], _ => by simp [sipUpdate]
  | [_, _, _, _, _], _ => by simp [sipUpdate]
  | [_, _, _, _, _, _], _ => by simp [sipUpdate]
  | [_, _, _, _, _, _, _], _ => by simp [sipUpdate]

theorem bulkLoop_eq_sipUpdate : ∀ (l : List Nat) (v : SipLanes) (tl : Nat),
    tl < 8 → l.length % 8 = tl → bulkLoop v tl l = sipUpdate v l
  | b0 :: b1 :: b2 :: b3 :: b4 :: b5 :: b6 :: b7 :: rest, v, tl, h8, hmod => by
      have hcond : tl < rest.length + 8 := by
        simp only [List.length_cons] at hmod
        omega
      simp only [bulkLoop, if_pos hcond, sipUpdate]
      exact bulkLoop_eq_sipUpdate rest _ tl h8
        (by simp only [List.length_cons] at hmod ⊢; omega)
  | [], _, _, h8, hmod => by simp [bulkLoop, sipUpdate]
  | [_], _, _, h8, hmod => by simp [bulkLoop, sipUpdate]
  | [_, _], _, _, h8, hmod => by simp [bulkLoop, sipUpdate]
  | [_, _, _], _, _, h8, hmod => by simp [bulkLoop, sipUpdate]
  | [_, _, _, _], _, _, h8, hmod => by simp [bulkLoop, sipUpdate]
  | [_, _, _, _, _], _, _, h8, hmod => by simp [bulkLoop, sipUpdate]
  | [_, _, _, _, _, _], _, _, h8, hmod => by simp [bulkLoop, sipUpdate]
  | [_, _, _, _, _, _, _], _, _, h8, hmod => by simp [bulkLoop, sipUpdate]

/-! ## Normal form of the append operation -/

theorem appendTail_norm (s : CSipHash) (bs : List Nat)
    (hmod : s.n_bytes % 8 = bs.length % 8) :
    appendTail s bs =
      { withLanes s (sipUpdate (lanesOf s) bs).1 with
        padding := s.padding ||| packLE ((sipUpdate (lanesOf s) bs).2) } := by
  rcases hsu : sipUpdate (lanesOf s) bs with ⟨w, r⟩
  have hsnd := sipUpdate_snd bs (lanesOf s)
  rw [hsu] at hsnd
  have hrlen : r.length = bs.length % 8 := by
    have : r = bs.drop (bs.length - bs.length % 8) := hsnd
    rw [this, List.length_drop]
    omega
  have hbulk : bulkLoop (lanesOf s) (s.n_bytes % 8) bs = (w, r) := by
    rw [hmod, bulkLoop_eq_sipUpdate bs _ _ (Nat.mod_lt _ (by norm_num)) rfl]
    exact hsu
  have htp : tailPack r (s.n_bytes % 8) = packLE r := by
    rw [hmod, ← hrlen, tailPack_eq_packLE r _ (le_refl _),
      List.take_of_length_le (le_refl _)]
  simp only [appendTail, hbulk, htp]

theorem append_norm (s : CSipHash) (p bs : List Nat)
    (hpad : s.padding = packLE p) (hmod : s.n_bytes % 8 = p.length) (hlt : p.length < 8) :
    c_siphash_append s bs =
      { withLanes s (sipUpdate (lanesOf s) (p ++ bs)).1 with
        padding := packLE ((sipUpdate (lanesOf s) (p ++ bs)).2),
        n_bytes := (s.n_bytes + bs.length) % 2 ^ 64 } := by
  by_cases h0 : s.n_bytes % 8 > 0
  case neg =>
    have hp : p = [] := List.length_eq_zero.mp (by omega)
    subst hp
    simp only [packLE] at hpad
    simp only [List.nil_append]
    have h1 : c_siphash_append s bs =
        appendTail { s with n_bytes := (s.n_bytes + bs.length) % 2 ^ 64 } bs := by
      simp only [c_siphash_append, if_neg h0]
    rw [h1, appendTail_norm _ _
      (by change ((s.n_bytes + bs.length) % 2 ^ 64) % 8 = bs.length % 8; omega)]
    simp only [lanesOf, withLanes, hpad, Nat.zero_or]
  case pos =>
    rcases hdr2 : drainLoop (packLE p) p.length bs with ⟨pad, lrest⟩
    rcases lrest with ⟨leftA, rest⟩
    have hdr := drainLoop_eq bs s.padding (s.n_bytes % 8) (by omega)
    rw [hmod, hpad, hdr2] at hdr
    simp only [Prod.mk.injEq] at hdr
    obtain ⟨hpadE, hleftE, hrestE⟩ := hdr
    simp only [c_siphash_append]
    rw [if_pos h0]
    simp only [hpad, hmod, hdr2]
    by_cases hsplit : bs.length < 8 - p.length
    · -- input exhausts before a full word: early return, state stays mid-word
      have hrest0 : rest = [] := by
        rw [hrestE]; exact List.drop_of_length_le (by omega)
      have hleftA : leftA = p.length + bs.length := by
        rw [hleftE]; split <;> omega
      rw [if_pos ⟨hrest0, by omega⟩]
      have hshort : sipUpdate (lanesOf s) (p ++ bs) = (lanesOf s, p ++ bs) :=
        sipUpdate_of_length_lt _ _ (by simp only [List.length_append]; omega)
      rw [hshort]
      have hcomb : pad = packLE (p ++ bs) := by
        rw [hpadE, List.take_of_length_le (by omega : bs.length ≤ 8 - p.length),
          packLE_append, Nat.mul_comm 8 p.length]
      rw [hcomb]
      simp only [withLanes, lanesOf]
    · -- a full word completes: mix it, then the bulk phase
      have hleftA : leftA = 8 := by rw [hleftE]; split <;> omega
      rw [if_neg (fun hcon => absurd hcon.2 (by omega))]
      have hmodT : (8 : Nat) ≤ (p ++ bs).length := by
        simp only [List.length_append]; omega
      have hstep := sipUpdate_step (lanesOf s) (p ++ bs) hmodT
      have htake8 : (p ++ bs).take 8 = p ++ bs.take (8 - p.length) := by
        rw [List.take_append_eq_append_take, List.take_of_length_le (by omega)]
      have hdrop8 : (p ++ bs).drop 8 = bs.drop (8 - p.length) := by
        rw [List.drop_append_eq_append_drop, List.drop_of_length_le (by omega),
          List.nil_append]
      rw [htake8, hdrop8] at hstep
      have hpadC : pad = packLE (p ++ bs.take (8 - p.length)) := by
        rw [hpadE, packLE_append, Nat.mul_comm 8 p.length]
      subst hrestE
      rw [appendTail_norm _ _ (by
        change ((s.n_bytes + bs.length) % 2 ^ 64) % 8 = (bs.drop (8 - p.length)).length % 8
        rw [List.length_drop]
        omega)]
      rw [hstep, hpadC]
      simp only [withLanes, lanesOf, Nat.zero_or]

/-! ## The padding invariant and streaming fusion -/

theorem padInv_init (seed : List Nat) : PadInv (c_siphash_init seed) :=
  ⟨by norm_num [c_siphash_init], [], rfl, rfl, by norm_num⟩

theorem append_padInv (s : CSipHash) (bs : List Nat) (h : PadInv s) :
    PadInv (c_siphash_append s bs) := by
  obtain ⟨hn, p, hpad, hmod, hlt⟩ := h
  rw [append_norm s p bs hpad hmod hlt]
  refine ⟨Nat.mod_lt _ (by norm_num), (sipUpdate (lanesOf s) (p ++ bs)).2, rfl, ?_, ?_⟩
  · show ((s.n_bytes + bs.length) % 2 ^ 64) % 8 = _
    rw [sipUpdate_snd, List.length_drop]
    simp only [List.length_append]
    omega
  · rw [sipUpdate_snd, List.length_drop]
    omega

theorem append_append (s : CSipHash) (A B : List Nat) (h : PadInv s) :
    c_siphash_append (c_siphash_append s A) B = c_siphash_append s (A ++ B) := by
  obtain ⟨hn, p, hpad, hmod, hlt⟩ := h
  rcases hsu : sipUpdate (lanesOf s) (p ++ A) with ⟨⟨a0, a1, a2, a3⟩, r1⟩
  have hsnd := sipUpdate_snd (p ++ A) (lanesOf s)
  rw [hsu] at hsnd
  have hr1 : r1 = (p ++ A).drop ((p ++ A).length - (p ++ A).length % 8) := hsnd
  have hr1len : r1.length = (p ++ A).length % 8 := by
    rw [hr1, List.length_drop]; omega
  rw [append_norm s p A hpad hmod hlt, hsu]
  rw [append_norm s p (A ++ B) hpad hmod hlt]
  have hchunk := sipUpdate_chunk (p ++ A) (lanesOf s) B
  rw [hsu, List.append_assoc] at hchunk
  rw [hchunk]
  rw [append_norm _ r1 B rfl ?hm ?hl]
  case hm =>
    show ((s.n_bytes + A.length) % 2 ^ 64) % 8 = _
    rw [hr1len]
    simp only [List.length_append]
    omega
  case hl =>
    rw [hr1len]
    simp only [List.length_append]
    omega
  simp only [withLanes, lanesOf, CSipHash.mk.injEq]
  refine ⟨trivial, trivial, trivial, trivial, trivial, ?_⟩
  simp only [List.length_append]
  omega

theorem append_flatten (chunks : List (List Nat)) :
    ∀ s : CSipHash, PadInv s →
      List.foldl c_siphash_append s chunks = c_siphash_append s chunks.flatten := by
  induction chunks with
  | nil =>
      intro s h
      obtain ⟨hn, p, hpad, hmod, hlt⟩ := h
      rw [List.foldl_nil, List.flatten_nil, append_norm s p [] hpad hmod hlt,
        List.append_nil, sipUpdate_of_length_lt _ _ hlt]
      simp only [withLanes, lanesOf, ← hpad, List.length_nil, Nat.add_zero,
        Nat.mod_eq_of_lt hn]
  | cons c cs ih =>
      intro s h
      rw [List.foldl_cons, List.flatten_cons, ih _ (append_padInv s c h),
        append_append s c cs.flatten h]

theorem append_nil_eq (s : CSipHash) (hn : s.n_bytes < 2 ^ 64) :
    c_siphash_append s [] = s := by
  by_cases h0 : s.n_bytes % 8 > 0
  · simp only [c_siphash_append]
    rw [if_pos h0]
    simp only [drainLoop]
    rw [if_pos ⟨by trivial, by omega⟩]
    simp only [List.length_nil, Nat.add_zero, Nat.mod_eq_of_lt hn]
  · simp only [c_siphash_append]
    rw [if_neg h0]
    simp only [appendTail, List.length_nil, Nat.add_zero, Nat.mod_eq_of_lt hn]
    have h8b : s.n_bytes % 8 = 0 := by omega
    simp only [bulkLoop, h8b, tailPack, Nat.or_zero]
    rfl

/-! ## Bridge between the memory-level and list-level append -/

theorem drainLoopMem_eq (buf : List Nat) (n i pad left : Nat)
    (hn : n ≤ buf.length) (hi : i ≤ n) :
    drainLoopMem buf n i pad left =
      some (n - (drainLoop pad left ((buf.take n).drop i)).2.2.length,
            (drainLoop pad left ((buf.take n).drop i)).1,
            (drainLoop pad left ((buf.take n).drop i)).2.1) := by
  by_cases hc : i < n ∧ left < 8
  · have hilt : i < buf.length := lt_of_lt_of_le hc.1 hn
    have hitk : i < (buf.take n).length := by
      simp only [List.length_take]; omega
    have hslice : (buf.take n).drop i = buf[i] :: (buf.take n).drop (i + 1) := by
      rw [List.drop_eq_getElem_cons hitk]
      congr 1
      exact List.getElem_take buf
    rw [drainLoopMem.eq_def, dif_pos hc, List.getElem?_eq_getElem hilt]
    show drainLoopMem buf n (i + 1) (pad ||| (buf[i] <<< (left * 8))) (left + 1) = _
    rw [drainLoopMem_eq buf n (i + 1) _ _ hn (by omega), hslice]
    simp only [drainLoop, if_pos hc.2]
  · rw [drainLoopMem.eq_def, dif_neg hc]
    by_cases hin : i < n
    · have hl8 : ¬ left < 8 := fun h => hc ⟨hin, h⟩
      have hdl : drainLoop pad left ((buf.take n).drop i) =
          (pad, left, (buf.take n).drop i) := by
        cases hsl : (buf.take n).drop i with
        | nil => simp [drainLoop]
        | cons b r => simp [drainLoop, if_neg hl8]
      rw [hdl]
      have hlen : ((buf.take n).drop i).length = n - i := by
        simp only [List.length_drop, List.length_take]; omega
      rw [hlen]
      have h2 : n - (n - i) = i := by omega
      rw [h2]
    · have hieq : i = n := by omega
      subst hieq
      have hsl : (buf.take i).drop i = ([] : List Nat) :=
        List.drop_of_length_le (by simp only [List.length_take]; omega)
      rw [hsl]
      simp [drainLoop]
termination_by n - i
decreasing_by omega

theorem readLE64Mem_eq (buf : List Nat) (i : Nat) (h : i + 8 ≤ buf.length) :
    readLE64Mem buf i = some (c_siphash_read_le64 (buf.drop i)) := by
  have h0 : i < buf.length := by omega
  have h1 : i + 1 < buf.length := by omega
  have h2 : i + 2 < buf.length := by omega
  have h3 : i + 3 < buf.length := by omega
  have h4 : i + 4 < buf.length := by omega
  have h5 : i + 5 < buf.length := by omega
  have h6 : i + 6 < buf.length := by omega
  have h7 : i + 7 < buf.length := by omega
  have hd : ∀ k, (hk : i + k < buf.length) → (buf.drop i).getD k 0 = buf[i + k] := by
    intro k hk
    have hk2 : k < (buf.drop i).length := by simp only [List.length_drop]; omega
    rw [List.getD_eq_getElem?_getD, List.getElem?_eq_getElem hk2]
    simp only [Option.getD_some, List.getElem_drop]
  simp only [readLE64Mem, List.getElem?_eq_getElem, h0, h1, h2, h3, h4, h5, h6, h7,
    Option.bind_eq_bind, Option.some_bind]
  rw [c_siphash_read_le64, hd 0 (by omega), hd 1 h1, hd 2 h2, hd 3 h3, hd 4 h4,
    hd 5 h5, hd 6 h6, hd 7 h7]
  norm_num

theorem bulkLoopMem_eq (buf : List Nat) (endi i : Nat) (v : SipLanes)
    (hmod : (endi - i) % 8 = 0) (hi : i ≤ endi) (hn : endi ≤ buf.length) :
    bulkLoopMem buf endi i v =
      some (endi, (sipUpdate v ((buf.take endi).drop i)).1) := by
  by_cases hc : i < endi
  · have h8 : i + 8 ≤ endi := by omega
    have hlen : 8 ≤ (buf.drop i).length := by
      simp only [List.length_drop]; omega
    have hread := readLE64Mem_eq buf i (by omega)
    rw [bulkLoopMem.eq_def, dif_pos hc, hread]
    show bulkLoopMem buf endi (i + 8) (compressV v (c_siphash_read_le64 (buf.drop i))) = _
    rw [bulkLoopMem_eq buf endi (i + 8) _ (by omega) (by omega) hn]
    have hsu := sipUpdate_step v ((buf.take endi).drop i)
      (by simp only [List.length_drop, List.length_take]; omega)
    have ht8 : ((buf.take endi).drop i).take 8 = (buf.drop i).take 8 := by
      rw [List.drop_take, List.take_take, Nat.min_eq_left (by omega)]
    have hd8 : ((buf.take endi).drop i).drop 8 = (buf.take endi).drop (i + 8) := by
      rw [List.drop_drop]
    rw [hsu, ht8, hd8, read_le64_eq_packLE hlen]
  · have hieq : i = endi := by omega
    subst hieq
    rw [bulkLoopMem.eq_def, dif_neg hc]
    have hsl : (buf.take i).drop i = ([] : List Nat) :=
      List.drop_of_length_le (by simp only [List.length_take]; omega)
    rw [hsl]
    rfl
termination_by endi - i
decreasing_by omega

theorem tailPackMem_eq (buf : List Nat) (n j : Nat) (hn : n ≤ buf.length) :
    ∀ k, j + k ≤ n →
      tailPackMem buf j k = some (tailPack ((buf.take n).drop j) k) := by
  intro k
  induction k with
  | zero => intro _; rfl
  | succ k ih =>
      intro hk
      have hjk : j + k < buf.length := by omega
      have hk2 : k < ((buf.take n).drop j).length := by
        simp only [List.length_drop, List.length_take]; omega
      have hgd : ((buf.take n).drop j).getD k 0 = buf[j + k] := by
        rw [List.getD_eq_getElem?_getD, List.getElem?_eq_getElem hk2]
        simp only [Option.getD_some, List.getElem_drop, List.getElem_take]
      simp only [tailPackMem]
      rw [ih (by omega), List.getElem?_eq_getElem hjk]
      show some (tailPack ((buf.take n).drop j) k ||| (buf[j + k] <<< (k * 8))) = _
      rw [tailPack, hgd]

theorem appendTailMem_eq (buf : List Nat) (n i : Nat) (s : CSipHash)
    (hn : n ≤ buf.length) (hit : i + s.n_bytes % 8 ≤ n)
    (hmod8 : (n - i - s.n_bytes % 8) % 8 = 0) :
    appendTailMem buf n i s = some (appendTail s ((buf.take n).drop i)) := by
  have htl8 : s.n_bytes % 8 < 8 := Nat.mod_lt _ (by norm_num)
  have hsplitlist : (buf.take n).drop i =
      ((buf.take (n - s.n_bytes % 8)).drop i) ++ ((buf.take n).drop (n - s.n_bytes % 8)) := by
    rw [List.drop_take, List.drop_take, List.drop_take]
    conv_lhs => rw [← List.take_append_drop ((n - s.n_bytes % 8) - i)
      (List.take (n - i) (List.drop i buf))]
    congr 1
    · rw [List.take_take, Nat.min_eq_left (by omega)]
    · rw [List.drop_take, List.drop_drop]
      have e1 : n - i - (n - s.n_bytes % 8 - i) = n - (n - s.n_bytes % 8) := by omega
      have e2 : i + (n - s.n_bytes % 8 - i) = n - s.n_bytes % 8 := by omega
      rw [e1, e2]
  have hXlen : ((buf.take (n - s.n_bytes % 8)).drop i).length = n - s.n_bytes % 8 - i := by
    simp only [List.length_drop, List.length_take]; omega
  have hRlen : ((buf.take n).drop (n - s.n_bytes % 8)).length = s.n_bytes % 8 := by
    simp only [List.length_drop, List.length_take]; omega
  rcases hsu : sipUpdate (lanesOf s) ((buf.take (n - s.n_bytes % 8)).drop i) with ⟨w, rX⟩
  have hsnd := sipUpdate_snd ((buf.take (n - s.n_bytes % 8)).drop i) (lanesOf s)
  rw [hsu] at hsnd
  have hrX : rX = [] := by
    have : rX = ((buf.take (n - s.n_bytes % 8)).drop i).drop
        (((buf.take (n - s.n_bytes % 8)).drop i).length -
          ((buf.take (n - s.n_bytes % 8)).drop i).length % 8) := hsnd
    rw [this, hXlen]
    exact List.drop_of_length_le (by rw [hXlen]; omega)
  have hfull : sipUpdate (lanesOf s) ((buf.take n).drop i) =
      (w, (buf.take n).drop (n - s.n_bytes % 8)) := by
    rw [hsplitlist, sipUpdate_chunk, hsu]
    show sipUpdate w (rX ++ (buf.take n).drop (n - s.n_bytes % 8)) = _
    rw [hrX, List.nil_append]
    exact sipUpdate_of_length_lt _ _ (by rw [hRlen]; omega)
  have hbulk := bulkLoopMem_eq buf (n - s.n_bytes % 8) i (lanesOf s)
    (by omega) (by omega) (by omega)
  rw [hsu] at hbulk
  have htpm := tailPackMem_eq buf n (n - s.n_bytes % 8) hn (s.n_bytes % 8) (by omega)
  have htp : tailPack ((buf.take n).drop (n - s.n_bytes % 8)) (s.n_bytes % 8) =
      packLE ((buf.take n).drop (n - s.n_bytes % 8)) := by
    rw [tailPack_eq_packLE _ _ (le_of_eq hRlen.symm),
      List.take_of_length_le (le_of_eq hRlen)]
  rw [appendTail_norm s _ (by rw [List.length_drop, List.length_take]; omega), hfull]
  simp only [appendTailMem, hbulk, htpm, htp]

theorem append_mem_take (s : CSipHash) (buf : List Nat) (n : Nat) (hn : n ≤ buf.length) :
    c_siphash_append_mem s buf n = some (c_siphash_append s (buf.take n)) := by
  have hlen : (buf.take n).length = n := by
    simp only [List.length_take]; omega
  by_cases h0 : s.n_bytes % 8 > 0
  · rcases hdr : drainLoop s.padding (s.n_bytes % 8) (buf.take n) with ⟨pad, lrest⟩
    rcases lrest with ⟨leftA, rest⟩
    have hd := drainLoopMem_eq buf n 0 s.padding (s.n_bytes % 8) hn (by omega)
    rw [List.drop_zero, hdr] at hd
    have hchar := drainLoop_eq (buf.take n) s.padding (s.n_bytes % 8) (by omega)
    rw [hdr] at hchar
    simp only [Prod.mk.injEq] at hchar
    obtain ⟨hpadE, hleftE, hrestE⟩ := hchar
    rw [hlen] at hleftE
    have hrlen : rest.length ≤ n := by
      rw [hrestE]
      simp only [List.length_drop, hlen]
      omega
    simp only [c_siphash_append_mem, c_siphash_append, hlen, hd, hdr]
    rw [if_pos h0, if_pos h0]
    by_cases hcase : rest = [] ∧ leftA < 8
    · have hrn : n - rest.length = n := by
        rw [hcase.1]
        simp
      rw [if_pos hcase, if_pos ⟨hrn, hcase.2⟩]
    · have hnotmem : ¬ (n - rest.length = n ∧ leftA < 8) := by
        intro hcon
        apply hcase
        refine ⟨?_, hcon.2⟩
        have hor : rest.length = 0 ∨ n = 0 := by omega
        rcases hor with h | h
        · exact List.length_eq_zero.mp h
        · subst h
          rw [hrestE]
          simp
      rw [if_neg hcase, if_neg hnotmem]
      have hge8 : ¬ (s.n_bytes % 8 + n < 8) := by
        intro hcond
        apply hcase
        constructor
        · rw [hrestE]
          exact List.drop_of_length_le (by rw [hlen]; omega)
        · rw [hleftE, if_pos hcond]
          omega
      have hrestlen : rest.length = n - (8 - s.n_bytes % 8) := by
        rw [hrestE]
        simp only [List.length_drop, hlen]
      have hi : n - rest.length = 8 - s.n_bytes % 8 := by omega
      rw [hi]
      rw [appendTailMem_eq buf n (8 - s.n_bytes % 8) _ hn
        (by show (8 - s.n_bytes % 8) + ((s.n_bytes + n) % 2 ^ 64) % 8 ≤ n; omega)
        (by show (n - (8 - s.n_bytes % 8) - ((s.n_bytes + n) % 2 ^ 64) % 8) % 8 = 0; omega)]
      rw [← hrestE]
  · simp only [c_siphash_append_mem, c_siphash_append, hlen]
    rw [if_neg h0, if_neg h0]
    rw [appendTailMem_eq buf n 0 _ hn
      (by show 0 + ((s.n_bytes + n) % 2 ^ 64) % 8 ≤ n; omega)
      (by show (n - 0 - ((s.n_bytes + n) % 2 ^ 64) % 8) % 8 = 0; omega)]
    rw [List.drop_zero]

/-! ## Rotation and finalization helpers -/

theorem rotate_left_lt (x b : Nat) (hx : x < 2 ^ 64) : c_siphash_rotate_left x b < 2 ^ 64 := by
  apply Nat.or_lt_two_pow
  · exact Nat.mod_lt _ (by norm_num)
  · calc x >>> (64 - b) = x / 2 ^ (64 - b) := Nat.shiftRight_eq_div_pow _ _
      _ ≤ x := Nat.div_le_self _ _
      _ < 2 ^ 64 := hx

theorem rotate_left_eq_rotl64 (x b : Nat) (hx : x < 2 ^ 64) (hb1 : 0 < b) (hb2 : b < 64) :
    c_siphash_rotate_left x b = rotl64 x b := by
  rw [c_siphash_rotate_left, rotl64]
  have h1 : (x <<< b) % 2 ^ 64 = (x % 2 ^ (64 - b)) * 2 ^ b := by
    rw [Nat.shiftLeft_eq]
    conv_lhs => rw [show (64 : Nat) = (64 - b) + b from by omega]
    rw [pow_add, Nat.mul_mod_mul_right]
  have h2 : x >>> (64 - b) < 2 ^ b := by
    rw [Nat.shiftRight_eq_div_pow]
    apply Nat.div_lt_of_lt_mul
    rw [← pow_add, show (64 - b) + b = 64 from by omega]
    exact hx
  rw [h1, show (x % 2 ^ (64 - b)) * 2 ^ b = (x % 2 ^ (64 - b)) <<< b from
    (Nat.shiftLeft_eq _ _).symm, Nat.or_comm, or_shiftLeft_eq_add _ h2, Nat.shiftLeft_eq,
    Nat.shiftRight_eq_div_pow]
  exact Nat.add_comm _ _

theorem rotl64_lt (x b : Nat) (hx : x < 2 ^ 64) (hb1 : 0 < b) (hb2 : b < 64) :
    rotl64 x b < 2 ^ 64 := by
  rw [← rotate_left_eq_rotl64 x b hx hb1 hb2]
  exact rotate_left_lt x b hx

theorem shift56_mod (x : Nat) : (x <<< 56) % 2 ^ 64 = (x % 2 ^ 8) <<< 56 := by
  rw [Nat.shiftLeft_eq, Nat.shiftLeft_eq,
    show (2 : Nat) ^ 64 = 2 ^ 8 * 2 ^ 56 from by norm_num, Nat.mul_mod_mul_right]

/-! ## Claim theorems -/

/-- C1: for every 16-byte seed, buffer and length `n`, the one-shot
`c_siphash_hash` returns exactly the value of `c_siphash_init`, one
`c_siphash_append` of the `n` buffer bytes, then `c_siphash_finalize`,
both at the memory level and at the list level. -/
theorem c1_hash_composition (seed buf : List Nat) (n : Nat) (h : n ≤ buf.length) :
    c_siphash_hash_mem seed buf n =
        some (c_siphash_finalize (c_siphash_append (c_siphash_init seed) (buf.take n))) ∧
    c_siphash_hash seed (buf.take n) =
        c_siphash_finalize (c_siphash_append (c_siphash_init seed) (buf.take n)) := by
  constructor
  · simp only [c_siphash_hash_mem]
    rw [append_mem_take _ _ _ h]
    rfl
  · rfl

theorem c1_witness :
    (3 : Nat) ≤ [10, 20, 30, 40].length ∧
    (c_siphash_hash_mem testSeed [10, 20, 30, 40] 3 =
        some (c_siphash_finalize
          (c_siphash_append (c_siphash_init testSeed) ([10, 20, 30, 40].take 3))) ∧
     c_siphash_hash testSeed ([10, 20, 30, 40].take 3) =
        c_siphash_finalize
          (c_siphash_append (c_siphash_init testSeed) ([10, 20, 30, 40].take 3))) :=
  ⟨by decide, c1_hash_composition testSeed [10, 20, 30, 40] 3 (by decide)⟩

/-- C2: for every seed and every partition of a message into chunks,
appending the chunks one by one and finalizing gives the same hash as a
single append of the whole message, which is the one-shot hash. -/
theorem c2_streaming_equivalence (seed : List Nat) (chunks : List (List Nat)) :
    c_siphash_finalize (List.foldl c_siphash_append (c_siphash_init seed) chunks) =
        c_siphash_finalize (c_siphash_append (c_siphash_init seed) chunks.flatten) ∧
    c_siphash_finalize (c_siphash_append (c_siphash_init seed) chunks.flatten) =
        c_siphash_hash seed chunks.flatten := by
  constructor
  · rw [append_flatten chunks _ (padInv_init seed)]
  · rfl

/-- C7: with the seed of `test_api` (the ASCII bytes of 0123456789abcdef)
and a zero-length input, the hash is 12552310112479190712, whether
computed by the one-shot or by init, append of nothing, finalize. -/
theorem c7_empty_input :
    c_siphash_hash testSeed [] = 12552310112479190712 ∧
    c_siphash_finalize (c_siphash_append (c_siphash_init testSeed) []) =
      12552310112479190712 := by
  constructor <;> rfl

/-- C8: buffer bytes at positions at or beyond the stated length never
influence the result: two buffers agreeing on their first `n` bytes give
the same append result and the same hash. -/
theorem c8_beyond_length (s : CSipHash) (seed buf1 buf2 : List Nat) (n : Nat)
    (h1 : n ≤ buf1.length) (h2 : n ≤ buf2.length) (heq : buf1.take n = buf2.take n) :
    c_siphash_append_mem s buf1 n = c_siphash_append_mem s buf2 n ∧
    c_siphash_hash_mem seed buf1 n = c_siphash_hash_mem seed buf2 n := by
  constructor
  · rw [append_mem_take s buf1 n h1, append_mem_take s buf2 n h2, heq]
  · simp only [c_siphash_hash_mem]
    rw [append_mem_take _ buf1 n h1, append_mem_take _ buf2 n h2, heq]

theorem c8_witness :
    (2 : Nat) ≤ [7, 8, 9].length ∧ (2 : Nat) ≤ [7, 8, 100, 200].length ∧
    [7, 8, 9].take 2 = [7, 8, 100, 200].take 2 ∧
    (∀ s : CSipHash,
      c_siphash_append_mem s [7, 8, 9] 2 = c_siphash_append_mem s [7, 8, 100, 200] 2 ∧
      c_siphash_hash_mem testSeed [7, 8, 9] 2 = c_siphash_hash_mem testSeed [7, 8, 100, 200] 2) :=
  ⟨by decide, by decide, by decide,
    fun s => c8_beyond_length s testSeed [7, 8, 9] [7, 8, 100, 200] 2
      (by decide) (by decide) (by decide)⟩

/-- C9: an append of length zero, with an empty or absent buffer, is a
no-op: it is safe and leaves every field of the state unchanged. -/
theorem c9_zero_append (s : CSipHash) (buf : List Nat) (hn : s.n_bytes < 2 ^ 64) :
    c_siphash_append_mem s buf 0 = some s ∧ c_siphash_append s [] = s := by
  constructor
  · rw [append_mem_take s buf 0 (Nat.zero_le _), List.take_zero, append_nil_eq s hn]
  · exact append_nil_eq s hn

theorem c9_witness :
    ({ v0 := 1, v1 := 2, v2 := 3, v3 := 4, padding := 77, n_bytes := 21 } : CSipHash).n_bytes
        < 2 ^ 64 ∧
    (c_siphash_append_mem
        { v0 := 1, v1 := 2, v2 := 3, v3 := 4, padding := 77, n_bytes := 21 } [] 0 =
      some { v0 := 1, v1 := 2, v2 := 3, v3 := 4, padding := 77, n_bytes := 21 } ∧
     c_siphash_append
        { v0 := 1, v1 := 2, v2 := 3, v3 := 4, padding := 77, n_bytes := 21 } [] =
      { v0 := 1, v1 := 2, v2 := 3, v3 := 4, padding := 77, n_bytes := 21 }) :=
  ⟨by decide,
    c9_zero_append { v0 := 1, v1 := 2, v2 := 3, v3 := 4, padding := 77, n_bytes := 21 } []
      (by decide)⟩

/-- C10: under the precondition that the buffer holds `n` readable bytes,
every access of `c_siphash_append` is in bounds: the checked memory-level
embedding never reaches the out-of-bounds branch, for every initial state,
and the result is the list-level append of exactly the first `n` bytes. -/
theorem c10_append_mem_safe (s : CSipHash) (buf : List Nat) (n : Nat) (h : n ≤ buf.length) :
    c_siphash_append_mem s buf n = some (c_siphash_append s (buf.take n)) :=
  append_mem_take s buf n h

theorem c10_witness :
    (5 : Nat) ≤ [1, 2, 3, 4, 5, 6].length ∧
    c_siphash_append_mem
        { v0 := 9, v1 := 8, v2 := 7, v3 := 6, padding := 5, n_bytes := 44 } [1, 2, 3, 4, 5, 6] 5 =
      some (c_siphash_append
        { v0 := 9, v1 := 8, v2 := 7, v3 := 6, padding := 5, n_bytes := 44 }
        ([1, 2, 3, 4, 5, 6].take 5)) :=
  ⟨by decide,
    c10_append_mem_safe { v0 := 9, v1 := 8, v2 := 7, v3 := 6, padding := 5, n_bytes := 44 }
      [1, 2, 3, 4, 5, 6] 5 (by decide)⟩

/-- C3: finalization computes the final block `b` from the pending bytes
with only the low 8 bits of the byte count above them, mixes it with
`v3 ^= b`, two rounds, `v0 ^= b`, then `v2 ^= 0xff`, exactly four further
rounds, and returns `v0 ^ v1 ^ v2 ^ v3`. -/
theorem c3_finalize_structure (s : CSipHash) (hpad : s.padding < 2 ^ 56) :
    c_siphash_finalize s = finalizeSpec s := by
  have hb : s.padding ||| ((s.n_bytes <<< 56) % 2 ^ 64) =
      s.padding + (s.n_bytes % 256) * 2 ^ 56 := by
    rw [shift56_mod, or_shiftLeft_eq_add _ hpad, Nat.shiftLeft_eq]
    norm_num
  simp only [c_siphash_finalize, finalizeSpec, hb]

theorem c3_witness :
    ({ v0 := 11, v1 := 22, v2 := 33, v3 := 44, padding := 257, n_bytes := 600 } :
        CSipHash).padding < 2 ^ 56 ∧
    c_siphash_finalize
        { v0 := 11, v1 := 22, v2 := 33, v3 := 44, padding := 257, n_bytes := 600 } =
      finalizeSpec { v0 := 11, v1 := 22, v2 := 33, v3 := 44, padding := 257, n_bytes := 600 } :=
  ⟨by decide,
    c3_finalize_structure
      { v0 := 11, v1 := 22, v2 := 33, v3 := 44, padding := 257, n_bytes := 600 } (by decide)⟩

/-- C4: initialization reads `k0` as the little-endian word of seed bytes
0-7 and `k1` as the little-endian word of seed bytes 8-15, xors them into
the four SipHash constants, and zeroes the accumulator and byte count. -/
theorem c4_init_state (seed : List Nat) (hlen : seed.length = 16) (hbytes : ByteList seed) :
    c_siphash_init seed =
      { v0 := 0x736f6d6570736575 ^^^ leVal (seed.take 8),
        v1 := 0x646f72616e646f6d ^^^ leVal (seed.drop 8),
        v2 := 0x6c7967656e657261 ^^^ leVal (seed.take 8),
        v3 := 0x7465646279746573 ^^^ leVal (seed.drop 8),
        padding := 0,
        n_bytes := 0 } := by
  have h1 : c_siphash_read_le64 seed = leVal (seed.take 8) := by
    rw [read_le64_eq_packLE (by omega),
      packLE_eq_leVal (fun b hb => hbytes b (List.mem_of_mem_take hb))]
  have h2 : c_siphash_read_le64 (seed.drop 8) = leVal (seed.drop 8) := by
    rw [read_le64_eq_packLE (by simp only [List.length_drop]; omega),
      List.take_of_length_le (by simp only [List.length_drop]; omega)]
    exact packLE_eq_leVal (fun b hb => hbytes b (List.mem_of_mem_drop hb))
  simp only [c_siphash_init, h1, h2]

theorem c4_witness :
    testSeed.length = 16 ∧ ByteList testSeed ∧
    c_siphash_init testSeed =
      { v0 := 0x736f6d6570736575 ^^^ leVal (testSeed.take 8),
        v1 := 0x646f72616e646f6d ^^^ leVal (testSeed.drop 8),
        v2 := 0x6c7967656e657261 ^^^ leVal (testSeed.take 8),
        v3 := 0x7465646279746573 ^^^ leVal (testSeed.drop 8),
        padding := 0,
        n_bytes := 0 } :=
  ⟨by decide, by unfold ByteList; decide,
    c4_init_state testSeed (by decide) (by unfold ByteList; decide)⟩

/-- C5: one round performs, in order, with wrap-around 64-bit addition and
64-bit rotation: `v0 += v1; v1 = rotl(v1,13); v1 ^= v0; v0 = rotl(v0,32);
v2 += v3; v3 = rotl(v3,16); v3 ^= v2; v0 += v3; v3 = rotl(v3,21);
v3 ^= v0; v2 += v1; v1 = rotl(v1,17); v1 ^= v2; v2 = rotl(v2,32)` with
rotation amounts 13, 32, 16, 21, 17, 32 and no others. -/
theorem c5_sipround_spec (s : CSipHash)
    (h0 : s.v0 < 2 ^ 64) (h1 : s.v1 < 2 ^ 64) (h2 : s.v2 < 2 ^ 64) (h3 : s.v3 < 2 ^ 64) :
    c_siphash_sipround s = siproundSpec s := by
  have hm : ∀ a b : Nat, (a + b) % 2 ^ 64 < 2 ^ 64 := fun a b => Nat.mod_lt _ (by norm_num)
  have e1 : c_siphash_rotate_left s.v1 13 = rotl64 s.v1 13 :=
    rotate_left_eq_rotl64 _ _ h1 (by norm_num) (by norm_num)
  have e2 : c_siphash_rotate_left ((s.v0 + s.v1) % 2 ^ 64) 32 =
      rotl64 ((s.v0 + s.v1) % 2 ^ 64) 32 :=
    rotate_left_eq_rotl64 _ _ (hm _ _) (by norm_num) (by norm_num)
  have e3 : c_siphash_rotate_left s.v3 16 = rotl64 s.v3 16 :=
    rotate_left_eq_rotl64 _ _ h3 (by norm_num) (by norm_num)
  have hv3b : rotl64 s.v3 16 ^^^ (s.v2 + s.v3) % 2 ^ 64 < 2 ^ 64 :=
    Nat.xor_lt_two_pow (rotl64_lt _ _ h3 (by norm_num) (by norm_num)) (hm _ _)
  have e4 : c_siphash_rotate_left (rotl64 s.v3 16 ^^^ (s.v2 + s.v3) % 2 ^ 64) 21 =
      rotl64 (rotl64 s.v3 16 ^^^ (s.v2 + s.v3) % 2 ^ 64) 21 :=
    rotate_left_eq_rotl64 _ _ hv3b (by norm_num) (by norm_num)
  have hv1b : rotl64 s.v1 13 ^^^ (s.v0 + s.v1) % 2 ^ 64 < 2 ^ 64 :=
    Nat.xor_lt_two_pow (rotl64_lt _ _ h1 (by norm_num) (by norm_num)) (hm _ _)
  have e5 : c_siphash_rotate_left (rotl64 s.v1 13 ^^^ (s.v0 + s.v1) % 2 ^ 64) 17 =
      rotl64 (rotl64 s.v1 13 ^^^ (s.v0 + s.v1) % 2 ^ 64) 17 :=
    rotate_left_eq_rotl64 _ _ hv1b (by norm_num) (by norm_num)
  have e6 : c_siphash_rotate_left
      (((s.v2 + s.v3) % 2 ^ 64 + (rotl64 s.v1 13 ^^^ (s.v0 + s.v1) % 2 ^ 64)) % 2 ^ 64) 32 =
      rotl64 (((s.v2 + s.v3) % 2 ^ 64 + (rotl64 s.v1 13 ^^^ (s.v0 + s.v1) % 2 ^ 64)) % 2 ^ 64)
        32 :=
    rotate_left_eq_rotl64 _ _ (hm _ _) (by norm_num) (by norm_num)
  simp only [c_siphash_sipround, siproundSpec, e1, e2, e3, e4, e5, e6]

theorem c5_witness :
    ({ v0 := 3, v1 := 5, v2 := 7, v3 := 9, padding := 0, n_bytes := 0 } : CSipHash).v0 < 2 ^ 64 ∧
    ({ v0 := 3, v1 := 5, v2 := 7, v3 := 9, padding := 0, n_bytes := 0 } : CSipHash).v1 < 2 ^ 64 ∧
    ({ v0 := 3, v1 := 5, v2 := 7, v3 := 9, padding := 0, n_bytes := 0 } : CSipHash).v2 < 2 ^ 64 ∧
    ({ v0 := 3, v1 := 5, v2 := 7, v3 := 9, padding := 0, n_bytes := 0 } : CSipHash).v3 < 2 ^ 64 ∧
    c_siphash_sipround { v0 := 3, v1 := 5, v2 := 7, v3 := 9, padding := 0, n_bytes := 0 } =
      siproundSpec { v0 := 3, v1 := 5, v2 := 7, v3 := 9, padding := 0, n_bytes := 0 } :=
  ⟨by decide, by decide, by decide, by decide,
    c5_sipround_spec { v0 := 3, v1 := 5, v2 := 7, v3 := 9, padding := 0, n_bytes := 0 }
      (by decide) (by decide) (by decide) (by decide)⟩

/-- C6: after init and any sequence of appends, the accumulator holds
exactly `total mod 8` bytes: the byte count is the total message length,
the accumulator is the little-endian packing of the last `total mod 8`
appended bytes, every higher byte position is zero, and the byte at
position `i` sits at bits `8 i .. 8 i + 7`. -/
theorem c6_padding_invariant (seed : List Nat) (chunks : List (List Nat))
    (hbytes : ByteList chunks.flatten) :
    (List.foldl c_siphash_append (c_siphash_init seed) chunks).n_bytes =
        chunks.flatten.length % 2 ^ 64 ∧
    (List.foldl c_siphash_append (c_siphash_init seed) chunks).padding =
        packLE (chunks.flatten.drop
          (chunks.flatten.length - chunks.flatten.length % 8)) ∧
    (List.foldl c_siphash_append (c_siphash_init seed) chunks).padding <
        2 ^ (8 * (chunks.flatten.length % 8)) ∧
    ∀ i, i < chunks.flatten.length % 8 →
      (List.foldl c_siphash_append (c_siphash_init seed) chunks).padding
          / 2 ^ (8 * i) % 256 =
        (chunks.flatten.drop
          (chunks.flatten.length - chunks.flatten.length % 8)).getD i 0 := by
  rw [append_flatten chunks _ (padInv_init seed),
    append_norm (c_siphash_init seed) [] chunks.flatten rfl rfl (by norm_num),
    List.nil_append]
  have hsnd := sipUpdate_snd chunks.flatten (lanesOf (c_siphash_init seed))
  have htail_len : (chunks.flatten.drop
      (chunks.flatten.length - chunks.flatten.length % 8)).length =
      chunks.flatten.length % 8 := by
    simp only [List.length_drop]
    omega
  have htail_bytes : ByteList (chunks.flatten.drop
      (chunks.flatten.length - chunks.flatten.length % 8)) :=
    fun b hb => hbytes b (List.mem_of_mem_drop hb)
  refine ⟨?_, ?_, ?_, ?_⟩
  · show ((c_siphash_init seed).n_bytes + chunks.flatten.length) % 2 ^ 64 =
        chunks.flatten.length % 2 ^ 64
    have h0 : (c_siphash_init seed).n_bytes = 0 := rfl
    rw [h0, Nat.zero_add]
  · show packLE ((sipUpdate (lanesOf (c_siphash_init seed)) chunks.flatten).2) = _
    rw [hsnd]
  · show packLE ((sipUpdate (lanesOf (c_siphash_init seed)) chunks.flatten).2) < _
    rw [hsnd]
    calc packLE (chunks.flatten.drop
          (chunks.flatten.length - chunks.flatten.length % 8)) <
        2 ^ (8 * (chunks.flatten.drop
          (chunks.flatten.length - chunks.flatten.length % 8)).length) :=
          packLE_lt htail_bytes
      _ = 2 ^ (8 * (chunks.flatten.length % 8)) := by rw [htail_len]
  · intro i hi
    show packLE ((sipUpdate (lanesOf (c_siphash_init seed)) chunks.flatten).2)
        / 2 ^ (8 * i) % 256 = _
    rw [hsnd]
    exact packLE_extract htail_bytes i (by rw [htail_len]; omega)

theorem c6_witness :
    ByteList [[1, 2, 3, 4, 5], [6, 7, 8, 9, 10]].flatten ∧
    ((List.foldl c_siphash_append (c_siphash_init testSeed)
        [[1, 2, 3, 4, 5], [6, 7, 8, 9, 10]]).n_bytes =
        [[1, 2, 3, 4, 5], [6, 7, 8, 9, 10]].flatten.length % 2 ^ 64 ∧
     (List.foldl c_siphash_append (c_siphash_init testSeed)
        [[1, 2, 3, 4, 5], [6, 7, 8, 9, 10]]).padding =
        packLE ([[1, 2, 3, 4, 5], [6, 7, 8, 9, 10]].flatten.drop
          ([[1, 2, 3, 4, 5], [6, 7, 8, 9, 10]].flatten.length -
            [[1, 2, 3, 4, 5], [6, 7, 8, 9, 10]].flatten.length % 8)) ∧
     (List.foldl c_siphash_append (c_siphash_init testSeed)
        [[1, 2, 3, 4, 5], [6, 7, 8, 9, 10]]).padding <
        2 ^ (8 * ([[1, 2, 3, 4, 5], [6, 7, 8, 9, 10]].flatten.length % 8)) ∧
     ∀ i, i < [[1, 2, 3, 4, 5], [6, 7, 8, 9, 10]].flatten.length % 8 →
       (List.foldl c_siphash_append (c_siphash_init testSeed)
          [[1, 2, 3, 4, 5], [6, 7, 8, 9, 10]]).padding / 2 ^ (8 * i) % 256 =
         ([[1, 2, 3, 4, 5], [6, 7, 8, 9, 10]].flatten.drop
           ([[1, 2, 3, 4, 5], [6, 7, 8, 9, 10]].flatten.length -
             [[1, 2, 3, 4, 5], [6, 7, 8, 9, 10]].flatten.length % 8)).getD i 0) :=
  ⟨by unfold ByteList; decide,
    c6_padding_invariant testSeed [[1, 2, 3, 4, 5], [6, 7, 8, 9, 10]]
      (by unfold ByteList; decide)⟩
